import Mathlib

/-!
Verification of `sketchybar/.config/sketchybar/scripts/color_extractor.py`.

The script extracts two visually distinct dominant colors from an image:
it quantizes sampled pixels into coarse buckets, ranks the buckets by
frequency, picks the most frequent bucket as `primary`, then searches the
remaining ranked buckets for a `secondary` satisfying WCAG-contrast and
redmean-distance thresholds (a strict pass, then a relaxed pass, then a
synthesized companion as a last resort).  The lighter color becomes the
foreground, the darker becomes the background and is darkened by 25 %,
and both are emitted as `0xffrrggbb` hexadecimal strings.

The embedding below follows the Python source line by line.  Pixel
channels are natural numbers; the float arithmetic of the WCAG helpers
(`relative_luminance`, `contrast_ratio`, `color_distance`) is modelled by
exact real arithmetic, and `brightness` (whose coefficients sum to 1) by
exact rational arithmetic.  Histogram construction mirrors Python's
insertion-ordered `Counter` with a stable descending sort for
`most_common`.
-/

namespace ColorExtractor

/-- An RGB color: a triple of channel intensities (`r`, `g`, `b`). -/
abbrev Color := ℕ × ℕ × ℕ

/-! ## Color math helpers -/

/-- The channel linearization inside `relative_luminance`:
`c = c / 255.0; return c / 12.92 if c <= 0.03928 else ((c + 0.055) / 1.055) ** 2.4`. -/
noncomputable def linearize (c : ℕ) : ℝ :=
  let x : ℝ := (c : ℝ) / 255
  if x ≤ 0.03928 then x / 12.92 else ((x + 0.055) / 1.055) ^ (2.4 : ℝ)

/-- WCAG 2.0 relative luminance:
`0.2126 * linearize(r) + 0.7152 * linearize(g) + 0.0722 * linearize(b)`. -/
noncomputable def relative_luminance (r g b : ℕ) : ℝ :=
  0.2126 * linearize r + 0.7152 * linearize g + 0.0722 * linearize b

/-- WCAG contrast ratio: `(lighter + 0.05) / (darker + 0.05)` where
`lighter`/`darker` are the max/min of the two relative luminances. -/
noncomputable def contrast_ratio (c1 c2 : Color) : ℝ :=
  let l1 := relative_luminance c1.1 c1.2.1 c1.2.2
  let l2 := relative_luminance c2.1 c2.2.1 c2.2.2
  (max l1 l2 + 0.05) / (min l1 l2 + 0.05)

/-- Redmean-weighted Euclidean distance; the Python source raises the
weighted sum of squares to the power `0.5`. -/
noncomputable def color_distance (c1 c2 : Color) : ℝ :=
  let rmean : ℝ := ((c1.1 : ℝ) + (c2.1 : ℝ)) / 2
  let dr : ℝ := (c1.1 : ℝ) - (c2.1 : ℝ)
  let dg : ℝ := (c1.2.1 : ℝ) - (c2.2.1 : ℝ)
  let db : ℝ := (c1.2.2 : ℝ) - (c2.2.2 : ℝ)
  ((2 + rmean / 256) * dr ^ 2 + 4 * dg ^ 2 + (2 + (255 - rmean) / 256) * db ^ 2)
    ^ (0.5 : ℝ)

/-- Perceived brightness (ITU-R BT.601): `0.299 * r + 0.587 * g + 0.114 * b`.
The coefficients are exact decimals, so rational arithmetic models the
computation exactly. -/
def brightness (r g b : ℕ) : ℚ :=
  0.299 * (r : ℚ) + 0.587 * (g : ℚ) + 0.114 * (b : ℚ)

/-- `brightness` applied to a color triple (Python unpacks with `*primary`). -/
def brightnessC (c : Color) : ℚ := brightness c.1 c.2.1 c.2.2

/-- One channel of `quantize` with the default `step = 24`:
`min(255, (c // step) * step + step // 2)`. -/
def quantizeChannel (c : ℕ) : ℕ := min 255 ((c / 24) * 24 + 24 / 2)

/-- `quantize`: map an (r,g,b) tuple to the center of its quantization
bucket, each channel independently (default `step = 24`). -/
def quantize (c : Color) : Color :=
  (quantizeChannel c.1, quantizeChannel c.2.1, quantizeChannel c.2.2)

/-! ## Histogram: Python's `Counter` and `most_common()`

`Counter(quantized)` counts occurrences per distinct key, keeping keys in
first-insertion order; `most_common()` sorts the `(key, count)` pairs by
count descending with a stable sort (ties keep insertion order). -/

/-- Record one occurrence of key `c` in an insertion-ordered count list. -/
def insertCount (c : Color) : List (Color × ℕ) → List (Color × ℕ)
  | [] => [(c, 1)]
  | (k, n) :: rest =>
      if k = c then (k, n + 1) :: rest else (k, n) :: insertCount c rest

/-- `Counter(l)`: occurrence counts per distinct key, keys in
first-insertion order. -/
def counter (l : List Color) : List (Color × ℕ) :=
  l.foldl (fun acc c => insertCount c acc) []

/-- Stable insertion (from the front) into a count-descending list:
an incoming element goes after all existing elements with `count ≥` its own. -/
def insertDesc (p : Color × ℕ) : List (Color × ℕ) → List (Color × ℕ)
  | [] => [p]
  | q :: rest => if p.2 ≤ q.2 then q :: insertDesc p rest else p :: q :: rest

/-- Stable sort by count descending (insertion sort). -/
def sortDesc : List (Color × ℕ) → List (Color × ℕ)
  | [] => []
  | p :: rest => insertDesc p (sortDesc rest)

/-- `ranked = Counter(quantized).most_common()` for a pixel sequence:
quantize every pixel, count buckets, and order by count descending. -/
def ranked (pixels : List Color) : List (Color × ℕ) :=
  sortDesc (counter (pixels.map quantize))

/-! ## Pair selection: strict pass, relaxed pass, synthesis -/

/-- Acceptance test of the strict pass (defaults `min_contrast = 3.0`,
`min_distance = 80`). -/
noncomputable def strictOk (p c : Color) : Prop :=
  contrast_ratio p c ≥ 3.0 ∧ color_distance p c ≥ 80

/-- Acceptance test of the relaxed pass: `contrast_ratio >= 2.0` and
`color_distance >= min_distance * 0.5`. -/
noncomputable def relaxedOk (p c : Color) : Prop :=
  contrast_ratio p c ≥ 2.0 ∧ color_distance p c ≥ 80 * 0.5

open Classical in
/-- The `for color, _ in ranked[1:]` loop with `break`: return the first
element satisfying `P`, or `none` when the scan is exhausted. -/
noncomputable def scanFor (P : Color → Prop) : List Color → Option Color
  | [] => none
  | c :: rest => if P c then some c else scanFor P rest

open Classical in
/-- The three-tier selection of `secondary`: strict pass, then relaxed
pass, then the synthesized companion
`(30,30,30) if brightness(*primary) > 127 else (230,230,230)`. -/
noncomputable def chooseSecondary (p : Color) (cands : List Color) : Color :=
  match scanFor (strictOk p) cands with
  | some c => c
  | none =>
    match scanFor (relaxedOk p) cands with
    | some c => c
    | none => if brightnessC p > 127 then (30, 30, 30) else (230, 230, 230)

/-! ## Role assignment, darkening, formatting -/

/-- `if brightness(*primary) >= brightness(*secondary)` then
`(foreground, background) = (primary, secondary)` else the swap. -/
def assignRoles (p s : Color) : Color × Color :=
  if brightnessC p ≥ brightnessC s then (p, s) else (s, p)

/-- One channel of background darkening: `max(0, int(c * 0.75))`.
Python's `int` truncates toward zero, which on a nonnegative value is the
floor. -/
def darkenChannel (c : ℕ) : ℕ := max 0 (Int.toNat ⌊(c : ℚ) * 0.75⌋)

/-- Darken all three channels of the background color. -/
def darken (c : Color) : Color :=
  (darkenChannel c.1, darkenChannel c.2.1, darkenChannel c.2.2)

/-- Lowercase hexadecimal digit for `n < 16`. -/
def hexDigit (n : ℕ) : Char :=
  if n < 10 then Char.ofNat (48 + n) else Char.ofNat (87 + n)

/-- Two-digit zero-padded lowercase hex rendering (`{c:02x}` for `c ≤ 255`). -/
def hex2 (n : ℕ) : List Char := [hexDigit (n / 16), hexDigit (n % 16)]

/-- `f"0xff{r:02x}{g:02x}{b:02x}"`. -/
def hexColor (c : Color) : String :=
  ⟨'0' :: 'x' :: 'f' :: 'f' :: (hex2 c.1 ++ hex2 c.2.1 ++ hex2 c.2.2)⟩

/-! ## The selection pipeline on a sampled pixel sequence

`extract_colors` below is the body of the Python function from the point
where the sampled pixel sequence is available (image decoding and the
80×80 resize are library calls; their output is the `pixels` argument). -/

/-- `primary = ranked[0][0]` (junk default on the empty histogram, which
the fallback branch short-circuits). -/
def primaryOf (pixels : List Color) : Color := (ranked pixels).headI.1

/-- The candidate list `ranked[1:]`, projected to the bucket keys
(the loops ignore the counts). -/
def candidatesOf (pixels : List Color) : List Color :=
  ((ranked pixels).tail).map Prod.fst

/-- The selected `secondary` color. -/
noncomputable def secondaryOf (pixels : List Color) : Color :=
  chooseSecondary (primaryOf pixels) (candidatesOf pixels)

/-- The `(foreground, background)` pair before darkening. -/
noncomputable def rolesOf (pixels : List Color) : Color × Color :=
  assignRoles (primaryOf pixels) (secondaryOf pixels)

/-- `extract_colors`: the full pipeline from sampled pixels to the two
`0xAARRGGBB` strings, including the empty-histogram fallback. -/
noncomputable def extract_colors (pixels : List Color) : String × String :=
  match ranked pixels with
  | [] => ("0xff888888", "0xff222222")
  | (p, _) :: rest =>
    let secondary := chooseSecondary p (rest.map Prod.fst)
    let fgbg := assignRoles p secondary
    (hexColor fgbg.1, hexColor (darken fgbg.2))

/-- "First satisfying candidate wins": `x` is the first element of `l`
(scanned left to right) satisfying `P`. -/
def firstWhere (P : Color → Prop) (l : List Color) (x : Color) : Prop :=
  ∃ l₁ l₂, l = l₁ ++ x :: l₂ ∧ P x ∧ ∀ c ∈ l₁, ¬ P c

/-- The three-tier characterization of the selected secondary color: if
some remaining ranked bucket passes the strict test, the secondary is the
first such bucket in scan order; if none does but some bucket passes the
relaxed test, the secondary is the first such; if neither tier finds a
candidate, the secondary is the synthesized companion chosen by the
primary's brightness. -/
def threeTierSpec (pixels : List Color) : Prop :=
  ((∃ c ∈ candidatesOf pixels, strictOk (primaryOf pixels) c) →
    firstWhere (strictOk (primaryOf pixels)) (candidatesOf pixels) (secondaryOf pixels))
  ∧ ((∀ c ∈ candidatesOf pixels, ¬ strictOk (primaryOf pixels) c) →
      (∃ c ∈ candidatesOf pixels, relaxedOk (primaryOf pixels) c) →
      firstWhere (relaxedOk (primaryOf pixels)) (candidatesOf pixels) (secondaryOf pixels))
  ∧ ((∀ c ∈ candidatesOf pixels, ¬ strictOk (primaryOf pixels) c) →
      (∀ c ∈ candidatesOf pixels, ¬ relaxedOk (primaryOf pixels) c) →
      secondaryOf pixels =
        if brightnessC (primaryOf pixels) > 127 then (30, 30, 30) else (230, 230, 230))

/-- All three channels fit in one byte (true of every color the pipeline
emits). -/
def channelsLe255 (c : Color) : Prop := c.1 ≤ 255 ∧ c.2.1 ≤ 255 ∧ c.2.2 ≤ 255

/-- Modelled from the spec: the image sampler (the `Image.open(...).convert("RGB")`
followed by `resize((80, 80))` and `getdata()`, whose behavior lives in the
PIL library, not in this repository) yields exactly 80 × 80 = 6400 pixels
for every successfully decoded image. -/
def sampledPixelCount : ℕ := 80 * 80

/-! ## Basic lemmas about the color math -/

lemma linearize_nonneg (c : ℕ) : 0 ≤ linearize c := by
  unfold linearize
  dsimp only
  split
  · positivity
  · exact Real.rpow_nonneg (by positivity) _

lemma relative_luminance_nonneg (r g b : ℕ) : 0 ≤ relative_luminance r g b := by
  unfold relative_luminance
  have hr := linearize_nonneg r
  have hg := linearize_nonneg g
  have hb := linearize_nonneg b
  nlinarith

lemma color_distance_self (c : Color) : color_distance c c = 0 := by
  simp only [color_distance, sub_self]
  rw [show ((2 : ℝ) + (((c.1 : ℝ) + (c.1 : ℝ)) / 2) / 256) * 0 ^ 2 + 4 * 0 ^ 2 +
        (2 + (255 - ((c.1 : ℝ) + (c.1 : ℝ)) / 2) / 256) * 0 ^ 2 = 0 by ring]
  exact Real.zero_rpow (by norm_num)

lemma contrast_ratio_self (c : Color) : contrast_ratio c c = 1 := by
  simp only [contrast_ratio, max_self, min_self]
  have h := relative_luminance_nonneg c.1 c.2.1 c.2.2
  rw [div_self]
  linarith

/-! ## Claim theorems: color-math primitives -/

/-- C8: `relative_luminance(0,0,0)` evaluates to exactly `0.0` and
`relative_luminance(255,255,255)` to exactly `1.0` (the same exact values
the implementation's double-precision arithmetic produces at these two
boundary inputs). -/
theorem relative_luminance_boundary :
    relative_luminance 0 0 0 = 0 ∧ relative_luminance 255 255 255 = 1 := by
  constructor
  · have h0 : linearize 0 = 0 := by
      unfold linearize
      rw [if_pos] <;> norm_num
    unfold relative_luminance
    rw [h0]; ring
  · have h1 : linearize 255 = 1 := by
      unfold linearize
      rw [if_neg (by norm_num)]
      rw [show (((255 : ℕ) : ℝ) / 255 + 0.055) / 1.055 = 1 by norm_num]
      exact Real.one_rpow _
    unfold relative_luminance
    rw [h1]; ring

/-- C9: for every color `c`, `contrast_ratio(c,c)` is exactly `1.0` and
`color_distance(c,c)` is exactly `0`. -/
theorem contrast_and_distance_identity (c : Color) :
    contrast_ratio c c = 1 ∧ color_distance c c = 0 :=
  ⟨contrast_ratio_self c, color_distance_self c⟩

/-! ## Claim theorems: quantization -/

set_option maxRecDepth 8000 in
lemma quantizeChannel_idem_lt : ∀ c < 256, quantizeChannel (quantizeChannel c) = quantizeChannel c := by
  decide

/-- C7: with the default step 24, `quantize` maps each channel `c`
independently to `min(255, (c div 24) * 24 + 12)`, and is idempotent on
8-bit channel values. -/
theorem quantize_formula_and_idem (r g b : ℕ)
    (hr : r ≤ 255) (hg : g ≤ 255) (hb : b ≤ 255) :
    quantize (r, g, b) =
      (min 255 (r / 24 * 24 + 12), min 255 (g / 24 * 24 + 12), min 255 (b / 24 * 24 + 12))
    ∧ quantize (quantize (r, g, b)) = quantize (r, g, b) := by
  constructor
  · rfl
  · show (quantizeChannel (quantizeChannel r), quantizeChannel (quantizeChannel g),
        quantizeChannel (quantizeChannel b)) = _
    rw [quantizeChannel_idem_lt r (by omega), quantizeChannel_idem_lt g (by omega),
      quantizeChannel_idem_lt b (by omega)]
    rfl

/-- Witness for C7 at the concrete triple (7, 100, 255). -/
theorem quantize_formula_and_idem_witness :
    (7 : ℕ) ≤ 255 ∧ (100 : ℕ) ≤ 255 ∧ (255 : ℕ) ≤ 255 ∧
    (quantize (7, 100, 255) =
      (min 255 (7 / 24 * 24 + 12), min 255 (100 / 24 * 24 + 12), min 255 (255 / 24 * 24 + 12))
    ∧ quantize (quantize (7, 100, 255)) = quantize (7, 100, 255)) :=
  ⟨by decide, by decide, by decide,
    quantize_formula_and_idem 7 100 255 (by decide) (by decide) (by decide)⟩

/-! ## The scanning loops: first-match semantics -/

lemma scanFor_eq_none {P : Color → Prop} {l : List Color} :
    scanFor P l = none ↔ ∀ c ∈ l, ¬ P c := by
  induction l with
  | nil => simp [scanFor]
  | cons a l ih =>
    by_cases h : P a
    · simp [scanFor, h]
    · simp [scanFor, h, ih]

lemma scanFor_eq_some {P : Color → Prop} {l : List Color} {x : Color}
    (h : scanFor P l = some x) : firstWhere P l x := by
  induction l with
  | nil => simp [scanFor] at h
  | cons a l ih =>
    by_cases ha : P a
    · simp only [scanFor, if_pos ha, Option.some.injEq] at h
      subst h
      exact ⟨[], l, rfl, ha, by simp⟩
    · simp only [scanFor, if_neg ha] at h
      obtain ⟨l₁, l₂, heq, hx, hall⟩ := ih h
      refine ⟨a :: l₁, l₂, by rw [heq]; rfl, hx, ?_⟩
      intro c hc
      rcases List.mem_cons.mp hc with rfl | hc
      · exact ha
      · exact hall c hc

lemma firstWhere_mem {P : Color → Prop} {l : List Color} {x : Color}
    (h : firstWhere P l x) : x ∈ l ∧ P x := by
  obtain ⟨l₁, l₂, heq, hx, -⟩ := h
  exact ⟨heq ▸ List.mem_append.mpr (Or.inr (List.mem_cons_self x l₂)), hx⟩

/-! ## Histogram structure lemmas -/

lemma insertCount_ne_nil (c : Color) (acc : List (Color × ℕ)) : insertCount c acc ≠ [] := by
  cases acc with
  | nil => simp [insertCount]
  | cons q rest =>
    obtain ⟨k, n⟩ := q
    unfold insertCount
    split <;> simp

lemma foldl_insertCount_ne_nil (l : List Color) :
    ∀ acc : List (Color × ℕ), acc ≠ [] →
      l.foldl (fun a c => insertCount c a) acc ≠ [] := by
  induction l with
  | nil => intro acc h; simpa using h
  | cons c l ih =>
    intro acc h
    rw [List.foldl_cons]
    exact ih _ (insertCount_ne_nil c acc)

lemma counter_ne_nil {l : List Color} (h : l ≠ []) : counter l ≠ [] := by
  cases l with
  | nil => exact absurd rfl h
  | cons c l =>
    unfold counter
    rw [List.foldl_cons]
    exact foldl_insertCount_ne_nil l _ (insertCount_ne_nil c [])

lemma insertDesc_ne_nil (p : Color × ℕ) (l : List (Color × ℕ)) : insertDesc p l ≠ [] := by
  cases l with
  | nil => simp [insertDesc]
  | cons q rest =>
    unfold insertDesc
    split <;> simp

lemma sortDesc_ne_nil {l : List (Color × ℕ)} (h : l ≠ []) : sortDesc l ≠ [] := by
  cases l with
  | nil => exact absurd rfl h
  | cons p rest => exact insertDesc_ne_nil p (sortDesc rest)

lemma ranked_ne_nil {pixels : List Color} (h : pixels ≠ []) : ranked pixels ≠ [] := by
  unfold ranked
  apply sortDesc_ne_nil
  apply counter_ne_nil
  simpa using h

lemma mem_insertDesc {p q : Color × ℕ} {l : List (Color × ℕ)}
    (h : q ∈ insertDesc p l) : q = p ∨ q ∈ l := by
  induction l with
  | nil => simpa [insertDesc] using h
  | cons r rest ih =>
    unfold insertDesc at h
    split at h
    · rcases List.mem_cons.mp h with rfl | h
      · exact Or.inr (List.mem_cons_self _ _)
      · rcases ih h with h | h
        · exact Or.inl h
        · exact Or.inr (List.mem_cons_of_mem _ h)
    · rcases List.mem_cons.mp h with rfl | h
      · exact Or.inl rfl
      · exact Or.inr h

lemma mem_sortDesc {l : List (Color × ℕ)} {q : Color × ℕ}
    (h : q ∈ sortDesc l) : q ∈ l := by
  induction l with
  | nil => exact h
  | cons p rest ih =>
    rcases mem_insertDesc h with rfl | h
    · exact List.mem_cons_self _ _
    · exact List.mem_cons_of_mem _ (ih h)

lemma insertCount_keys (c : Color) (acc : List (Color × ℕ)) :
    (insertCount c acc).map Prod.fst = acc.map Prod.fst ∨
    (insertCount c acc).map Prod.fst = acc.map Prod.fst ++ [c] := by
  induction acc with
  | nil => right; rfl
  | cons q rest ih =>
    obtain ⟨k, n⟩ := q
    unfold insertCount
    split
    · left; rfl
    · rcases ih with h | h
      · left; simp only [List.map_cons, h]
      · right; simp only [List.map_cons, h, List.cons_append]

lemma counter_keys_sub (l : List Color) :
    ∀ acc : List (Color × ℕ),
      ∀ k ∈ (l.foldl (fun a c => insertCount c a) acc).map Prod.fst,
        k ∈ l ∨ k ∈ acc.map Prod.fst := by
  induction l with
  | nil => intro acc k hk; exact Or.inr hk
  | cons c l ih =>
    intro acc k hk
    rw [List.foldl_cons] at hk
    rcases ih (insertCount c acc) k hk with h | h
    · exact Or.inl (List.mem_cons_of_mem _ h)
    · rcases insertCount_keys c acc with he | he
      · rw [he] at h
        exact Or.inr h
      · rw [he] at h
        rcases List.mem_append.mp h with h | h
        · exact Or.inr h
        · simp only [List.mem_singleton] at h
          subst h
          exact Or.inl (List.mem_cons_self _ _)

lemma mem_counter_key {l : List Color} {kv : Color × ℕ} (h : kv ∈ counter l) :
    kv.1 ∈ l := by
  have h2 := counter_keys_sub l [] kv.1 (List.mem_map_of_mem Prod.fst h)
  simpa using h2

lemma mem_ranked_shape {pixels : List Color} {kv : Color × ℕ}
    (h : kv ∈ ranked pixels) : ∃ q ∈ pixels, kv.1 = quantize q := by
  have h1 : kv ∈ counter (pixels.map quantize) := mem_sortDesc h
  have h2 : kv.1 ∈ pixels.map quantize := mem_counter_key h1
  obtain ⟨q, hq, he⟩ := List.mem_map.mp h2
  exact ⟨q, hq, he.symm⟩

lemma headI_mem {l : List (Color × ℕ)} (h : l ≠ []) : l.headI ∈ l := by
  cases l with
  | nil => exact absurd rfl h
  | cons a l => exact List.mem_cons_self _ _

lemma primaryOf_shape {pixels : List Color} (h : ranked pixels ≠ []) :
    ∃ q ∈ pixels, primaryOf pixels = quantize q :=
  mem_ranked_shape (headI_mem h)

lemma mem_candidates_shape {pixels : List Color} {c : Color}
    (h : c ∈ candidatesOf pixels) : ∃ q ∈ pixels, c = quantize q := by
  unfold candidatesOf at h
  obtain ⟨kv, hkv, rfl⟩ := List.mem_map.mp h
  exact mem_ranked_shape (List.tail_subset _ hkv)

/-! ## Channel-level lemmas -/

lemma quantizeChannel_le_255 (c : ℕ) : quantizeChannel c ≤ 255 :=
  min_le_left _ _

lemma channelsLe255_quantize (c : Color) : channelsLe255 (quantize c) :=
  ⟨quantizeChannel_le_255 _, quantizeChannel_le_255 _, quantizeChannel_le_255 _⟩

lemma quantizeChannel_mod (c : ℕ) :
    quantizeChannel c % 24 = 12 ∨ quantizeChannel c = 255 := by
  unfold quantizeChannel
  rcases le_total (c / 24 * 24 + 24 / 2) 255 with h | h
  · left
    rw [min_eq_right h]
    omega
  · right
    rw [min_eq_left h]

lemma quantizeChannel_ne (c v : ℕ) (h12 : v % 24 ≠ 12) (h255 : v ≠ 255) :
    quantizeChannel c ≠ v := by
  rcases quantizeChannel_mod c with h | h <;> omega

lemma quantize_ne_30_230 (q : Color) :
    quantize q ≠ (30, 30, 30) ∧ quantize q ≠ (230, 230, 230) := by
  constructor
  · intro he
    have h1 : quantizeChannel q.1 = 30 := congrArg Prod.fst he
    exact quantizeChannel_ne q.1 30 (by norm_num) (by norm_num) h1
  · intro he
    have h1 : quantizeChannel q.1 = 230 := congrArg Prod.fst he
    exact quantizeChannel_ne q.1 230 (by norm_num) (by norm_num) h1

lemma darkenChannel_eq (c : ℕ) : darkenChannel c = 3 * c / 4 := by
  unfold darkenChannel
  have h : (c : ℚ) * 0.75 = ((3 * c : ℕ) : ℚ) / ((4 : ℕ) : ℚ) := by
    push_cast
    ring
  rw [h, Rat.floor_natCast_div_natCast]
  simp
  omega

lemma darkenChannel_le (c : ℕ) : darkenChannel c ≤ c := by
  rw [darkenChannel_eq]
  omega

lemma darkenChannel_eq_self {c : ℕ} (h : darkenChannel c = c) : c = 0 := by
  rw [darkenChannel_eq] at h
  omega

lemma brightnessC_le_of_le {d b : Color}
    (h1 : d.1 ≤ b.1) (h2 : d.2.1 ≤ b.2.1) (h3 : d.2.2 ≤ b.2.2) :
    brightnessC d ≤ brightnessC b := by
  unfold brightnessC brightness
  have c1 : (d.1 : ℚ) ≤ b.1 := Nat.cast_le.mpr h1
  have c2 : (d.2.1 : ℚ) ≤ b.2.1 := Nat.cast_le.mpr h2
  have c3 : (d.2.2 : ℚ) ≤ b.2.2 := Nat.cast_le.mpr h3
  linarith

lemma brightness_eq_forces {d b : Color}
    (h1 : d.1 ≤ b.1) (h2 : d.2.1 ≤ b.2.1) (h3 : d.2.2 ≤ b.2.2)
    (hbr : brightnessC b ≤ brightnessC d) : d = b := by
  obtain ⟨d1, d2, d3⟩ := d
  obtain ⟨b1, b2, b3⟩ := b
  simp only at h1 h2 h3
  unfold brightnessC brightness at hbr
  simp only at hbr
  have c1 : (d1 : ℚ) ≤ b1 := Nat.cast_le.mpr h1
  have c2 : (d2 : ℚ) ≤ b2 := Nat.cast_le.mpr h2
  have c3 : (d3 : ℚ) ≤ b3 := Nat.cast_le.mpr h3
  have e1 : (b1 : ℚ) ≤ d1 := by linarith
  have e2 : (b2 : ℚ) ≤ d2 := by linarith
  have e3 : (b3 : ℚ) ≤ d3 := by linarith
  have f1 : d1 = b1 := le_antisymm h1 (Nat.cast_le.mp e1)
  have f2 : d2 = b2 := le_antisymm h2 (Nat.cast_le.mp e2)
  have f3 : d3 = b3 := le_antisymm h3 (Nat.cast_le.mp e3)
  rw [f1, f2, f3]

lemma darken_le (c : Color) :
    (darken c).1 ≤ c.1 ∧ (darken c).2.1 ≤ c.2.1 ∧ (darken c).2.2 ≤ c.2.2 :=
  ⟨darkenChannel_le _, darkenChannel_le _, darkenChannel_le _⟩

/-! ## Hex formatting is injective on byte-sized channels -/

lemma hexDigit_inj : ∀ m < 16, ∀ n < 16, hexDigit m = hexDigit n → m = n := by
  decide

lemma hexColor_inj {a b : Color} (ha : channelsLe255 a) (hb : channelsLe255 b)
    (h : hexColor a = hexColor b) : a = b := by
  obtain ⟨a1, a2, a3⟩ := a
  obtain ⟨b1, b2, b3⟩ := b
  obtain ⟨ha1, ha2, ha3⟩ := ha
  obtain ⟨hb1, hb2, hb3⟩ := hb
  simp only at ha1 ha2 ha3 hb1 hb2 hb3
  unfold hexColor hex2 at h
  have hl := congrArg String.data h
  simp only [List.cons_append, List.nil_append, List.cons.injEq, and_true,
    true_and] at hl
  obtain ⟨e1, e2, e3, e4, e5, e6⟩ := hl
  have q1 := hexDigit_inj _ (by omega) _ (by omega) e1
  have q2 := hexDigit_inj _ (by omega) _ (by omega) e2
  have q3 := hexDigit_inj _ (by omega) _ (by omega) e3
  have q4 := hexDigit_inj _ (by omega) _ (by omega) e4
  have q5 := hexDigit_inj _ (by omega) _ (by omega) e5
  have q6 := hexDigit_inj _ (by omega) _ (by omega) e6
  have : a1 = b1 := by omega
  have : a2 = b2 := by omega
  have : a3 = b3 := by omega
  simp_all

/-! ## Selection and role-assignment lemmas -/

lemma scanFor_mem {P : Color → Prop} {l : List Color} {x : Color}
    (h : scanFor P l = some x) : x ∈ l ∧ P x :=
  firstWhere_mem (scanFor_eq_some h)

lemma ne_of_color_distance_ge {p c : Color} {t : ℝ} (ht : 0 < t)
    (h : color_distance p c ≥ t) : c ≠ p := by
  rintro rfl
  rw [color_distance_self] at h
  linarith

lemma secondaryOf_shape (pixels : List Color) :
    secondaryOf pixels ∈ candidatesOf pixels
    ∨ secondaryOf pixels = (30, 30, 30) ∨ secondaryOf pixels = (230, 230, 230) := by
  have hsec : secondaryOf pixels =
      chooseSecondary (primaryOf pixels) (candidatesOf pixels) := rfl
  rcases hs : scanFor (strictOk (primaryOf pixels)) (candidatesOf pixels) with _ | c
  · rcases hr : scanFor (relaxedOk (primaryOf pixels)) (candidatesOf pixels) with _ | c
    · have hval : secondaryOf pixels =
          if brightnessC (primaryOf pixels) > 127 then (30, 30, 30) else (230, 230, 230) := by
        rw [hsec]; unfold chooseSecondary; rw [hs, hr]
      rw [hval]
      split
      · exact Or.inr (Or.inl rfl)
      · exact Or.inr (Or.inr rfl)
    · have hval : secondaryOf pixels = c := by
        rw [hsec]; unfold chooseSecondary; rw [hs, hr]
      rw [hval]
      exact Or.inl (scanFor_mem hr).1
  · have hval : secondaryOf pixels = c := by
      rw [hsec]; unfold chooseSecondary; rw [hs]
    rw [hval]
    exact Or.inl (scanFor_mem hs).1

lemma secondaryOf_ne_primaryOf {pixels : List Color} (h : ranked pixels ≠ []) :
    secondaryOf pixels ≠ primaryOf pixels := by
  have hsec : secondaryOf pixels =
      chooseSecondary (primaryOf pixels) (candidatesOf pixels) := rfl
  rcases hs : scanFor (strictOk (primaryOf pixels)) (candidatesOf pixels) with _ | c
  · rcases hr : scanFor (relaxedOk (primaryOf pixels)) (candidatesOf pixels) with _ | c
    · have hval : secondaryOf pixels =
          if brightnessC (primaryOf pixels) > 127 then (30, 30, 30) else (230, 230, 230) := by
        rw [hsec]; unfold chooseSecondary; rw [hs, hr]
      obtain ⟨q, hq, he⟩ := primaryOf_shape h
      rw [hval, he]
      split
      · intro heq
        exact (quantize_ne_30_230 q).1 heq.symm
      · intro heq
        exact (quantize_ne_30_230 q).2 heq.symm
    · have hval : secondaryOf pixels = c := by
        rw [hsec]; unfold chooseSecondary; rw [hs, hr]
      rw [hval]
      exact ne_of_color_distance_ge (by norm_num) (scanFor_mem hr).2.2
  · have hval : secondaryOf pixels = c := by
      rw [hsec]; unfold chooseSecondary; rw [hs]
    rw [hval]
    exact ne_of_color_distance_ge (by norm_num) (scanFor_mem hs).2.2

lemma channelsLe255_secondaryOf {pixels : List Color} :
    channelsLe255 (secondaryOf pixels) := by
  rcases secondaryOf_shape pixels with h | h | h
  · obtain ⟨q, -, he⟩ := mem_candidates_shape h
    rw [he]
    exact channelsLe255_quantize q
  · rw [h]
    exact ⟨by norm_num, by norm_num, by norm_num⟩
  · rw [h]
    exact ⟨by norm_num, by norm_num, by norm_num⟩

lemma channelsLe255_primaryOf {pixels : List Color} (h : ranked pixels ≠ []) :
    channelsLe255 (primaryOf pixels) := by
  obtain ⟨q, -, he⟩ := primaryOf_shape h
  rw [he]
  exact channelsLe255_quantize q

lemma assignRoles_cases (p s : Color) :
    assignRoles p s = (p, s) ∨ assignRoles p s = (s, p) := by
  unfold assignRoles
  split
  · exact Or.inl rfl
  · exact Or.inr rfl

lemma assignRoles_brightness (p s : Color) :
    brightnessC (assignRoles p s).2 ≤ brightnessC (assignRoles p s).1 := by
  unfold assignRoles
  by_cases hb : brightnessC p ≥ brightnessC s
  · rw [if_pos hb]
    exact hb
  · rw [if_neg hb]
    exact le_of_not_le hb

lemma rolesOf_ne {pixels : List Color} (h : ranked pixels ≠ []) :
    (rolesOf pixels).1 ≠ (rolesOf pixels).2 := by
  unfold rolesOf
  rcases assignRoles_cases (primaryOf pixels) (secondaryOf pixels) with he | he <;> rw [he]
  · exact fun heq => secondaryOf_ne_primaryOf h heq.symm
  · exact secondaryOf_ne_primaryOf h

lemma channelsLe255_rolesOf {pixels : List Color} (h : ranked pixels ≠ []) :
    channelsLe255 (rolesOf pixels).1 ∧ channelsLe255 (rolesOf pixels).2 := by
  unfold rolesOf
  rcases assignRoles_cases (primaryOf pixels) (secondaryOf pixels) with he | he <;> rw [he]
  · exact ⟨channelsLe255_primaryOf h, channelsLe255_secondaryOf⟩
  · exact ⟨channelsLe255_secondaryOf, channelsLe255_primaryOf h⟩

lemma extract_colors_nil {pixels : List Color} (h : ranked pixels = []) :
    extract_colors pixels = ("0xff888888", "0xff222222") := by
  unfold extract_colors
  rw [h]

lemma extract_colors_eq {pixels : List Color} (h : ranked pixels ≠ []) :
    extract_colors pixels =
      (hexColor (rolesOf pixels).1, hexColor (darken (rolesOf pixels).2)) := by
  unfold extract_colors rolesOf secondaryOf primaryOf candidatesOf
  rcases hrk : ranked pixels with _ | ⟨⟨p, n⟩, rest⟩
  · exact absurd hrk h
  · rfl

/-! ## Claim theorems: three-tier secondary selection -/

/-- C1: on every non-empty ranked histogram (primary = most frequent
bucket), the secondary is chosen by the strict three-tier chain — first
match of the strict test (`contrast ≥ 3.0` and `distance ≥ 80`) over the
remaining ranked buckets in order, else first match of the relaxed test
(`contrast ≥ 2.0` and `distance ≥ 80 * 0.5`), else the synthetic color
`(30,30,30)` when `brightness(primary) > 127` and `(230,230,230)`
otherwise; each later tier is entered only when the previous found no
candidate. -/
theorem secondary_three_tier (pixels : List Color) (_h : ranked pixels ≠ []) :
    threeTierSpec pixels := by
  have hsec : secondaryOf pixels =
      chooseSecondary (primaryOf pixels) (candidatesOf pixels) := rfl
  unfold threeTierSpec
  rcases hs : scanFor (strictOk (primaryOf pixels)) (candidatesOf pixels) with _ | c
  · have hnone := scanFor_eq_none.mp hs
    rcases hr : scanFor (relaxedOk (primaryOf pixels)) (candidatesOf pixels) with _ | c
    · have hrnone := scanFor_eq_none.mp hr
      have hval : secondaryOf pixels =
          if brightnessC (primaryOf pixels) > 127 then (30, 30, 30) else (230, 230, 230) := by
        rw [hsec]; unfold chooseSecondary; rw [hs, hr]
      refine ⟨?_, ?_, fun _ _ => hval⟩
      · rintro ⟨c, hc, hsc⟩
        exact absurd hsc (hnone c hc)
      · rintro - ⟨c, hc, hrc⟩
        exact absurd hrc (hrnone c hc)
    · have hval : secondaryOf pixels = c := by
        rw [hsec]; unfold chooseSecondary; rw [hs, hr]
      have hfw := scanFor_eq_some hr
      refine ⟨?_, ?_, ?_⟩
      · rintro ⟨c', hc', hsc'⟩
        exact absurd hsc' (hnone c' hc')
      · rintro - -
        rw [hval]; exact hfw
      · rintro - hrnone
        obtain ⟨hmem, hrc⟩ := firstWhere_mem hfw
        exact absurd hrc (hrnone c hmem)
  · have hval : secondaryOf pixels = c := by
      rw [hsec]; unfold chooseSecondary; rw [hs]
    have hfw := scanFor_eq_some hs
    obtain ⟨hmem, hsc⟩ := firstWhere_mem hfw
    refine ⟨?_, ?_, ?_⟩
    · rintro -
      rw [hval]; exact hfw
    · intro hnone _
      exact absurd hsc (hnone c hmem)
    · intro hnone _
      exact absurd hsc (hnone c hmem)

/-- Witness for C1 at the one-pixel sequence [(0,0,0)]. -/
theorem secondary_three_tier_witness :
    ranked [((0, 0, 0) : Color)] ≠ [] ∧ threeTierSpec [((0, 0, 0) : Color)] :=
  ⟨by decide, secondary_three_tier [((0, 0, 0) : Color)] (by decide)⟩

/-! ## Solid-color inputs -/

lemma foldl_insertCount_replicate (c : Color) (m k : ℕ) :
    List.foldl (fun acc x => insertCount x acc) [(c, m)] (List.replicate k c) =
      [(c, m + k)] := by
  induction k generalizing m with
  | zero => simp
  | succ k ih =>
    rw [List.replicate_succ, List.foldl_cons]
    have h1 : insertCount c [(c, m)] = [(c, m + 1)] := by simp [insertCount]
    rw [h1, ih]
    have h2 : m + 1 + k = m + (k + 1) := by omega
    rw [h2]

lemma counter_replicate (c : Color) (n : ℕ) (hn : n ≠ 0) :
    counter (List.replicate n c) = [(c, n)] := by
  obtain ⟨k, rfl⟩ : ∃ k, n = k + 1 := ⟨n - 1, by omega⟩
  unfold counter
  rw [List.replicate_succ, List.foldl_cons]
  have h1 : insertCount c ([] : List (Color × ℕ)) = [(c, 1)] := rfl
  rw [h1, foldl_insertCount_replicate]
  rw [Nat.add_comm]

lemma ranked_replicate (c : Color) (n : ℕ) (hn : n ≠ 0) :
    ranked (List.replicate n c) = [(quantize c, n)] := by
  unfold ranked
  rw [List.map_replicate, counter_replicate _ _ hn]
  rfl

lemma primaryOf_replicate (c : Color) (n : ℕ) (hn : n ≠ 0) :
    primaryOf (List.replicate n c) = quantize c := by
  unfold primaryOf
  rw [ranked_replicate c n hn]
  rfl

lemma candidatesOf_replicate (c : Color) (n : ℕ) (hn : n ≠ 0) :
    candidatesOf (List.replicate n c) = [] := by
  unfold candidatesOf
  rw [ranked_replicate c n hn]
  rfl

lemma secondaryOf_replicate (c : Color) (n : ℕ) (hn : n ≠ 0) :
    secondaryOf (List.replicate n c) =
      if brightnessC (quantize c) > 127 then (30, 30, 30) else (230, 230, 230) := by
  unfold secondaryOf chooseSecondary
  rw [candidatesOf_replicate c n hn, primaryOf_replicate c n hn]
  simp only [scanFor]

/-- C5: on 6400 sampled pixels all equal to (0,0,0) the ranked histogram
has exactly one bucket, so the strict and relaxed tiers scan zero
candidates and fail, and the synthetic tier produces `(230,230,230)`;
symmetrically, on 6400 pixels all equal to (255,255,255) the synthetic
tier produces `(30,30,30)`. -/
theorem solid_black_and_white_synthetic :
    ranked (List.replicate 6400 ((0, 0, 0) : Color)) = [((12, 12, 12), 6400)]
    ∧ candidatesOf (List.replicate 6400 ((0, 0, 0) : Color)) = []
    ∧ scanFor (strictOk (primaryOf (List.replicate 6400 ((0, 0, 0) : Color))))
        (candidatesOf (List.replicate 6400 ((0, 0, 0) : Color))) = none
    ∧ scanFor (relaxedOk (primaryOf (List.replicate 6400 ((0, 0, 0) : Color))))
        (candidatesOf (List.replicate 6400 ((0, 0, 0) : Color))) = none
    ∧ secondaryOf (List.replicate 6400 ((0, 0, 0) : Color)) = (230, 230, 230)
    ∧ ranked (List.replicate 6400 ((255, 255, 255) : Color)) = [((252, 252, 252), 6400)]
    ∧ candidatesOf (List.replicate 6400 ((255, 255, 255) : Color)) = []
    ∧ secondaryOf (List.replicate 6400 ((255, 255, 255) : Color)) = (30, 30, 30) := by
  have hqb : quantize ((0, 0, 0) : Color) = (12, 12, 12) := by decide
  have hqw : quantize ((255, 255, 255) : Color) = (252, 252, 252) := by decide
  have hb : ranked (List.replicate 6400 ((0, 0, 0) : Color)) = [((12, 12, 12), 6400)] := by
    rw [ranked_replicate _ _ (by norm_num), hqb]
  have hw : ranked (List.replicate 6400 ((255, 255, 255) : Color)) =
      [((252, 252, 252), 6400)] := by
    rw [ranked_replicate _ _ (by norm_num), hqw]
  have hcb : candidatesOf (List.replicate 6400 ((0, 0, 0) : Color)) = [] :=
    candidatesOf_replicate _ _ (by norm_num)
  have hcw : candidatesOf (List.replicate 6400 ((255, 255, 255) : Color)) = [] :=
    candidatesOf_replicate _ _ (by norm_num)
  have hsb : secondaryOf (List.replicate 6400 ((0, 0, 0) : Color)) = (230, 230, 230) := by
    rw [secondaryOf_replicate _ _ (by norm_num), hqb]
    rw [if_neg (by norm_num [brightnessC, brightness])]
  have hsw : secondaryOf (List.replicate 6400 ((255, 255, 255) : Color)) = (30, 30, 30) := by
    rw [secondaryOf_replicate _ _ (by norm_num), hqw]
    rw [if_pos (by norm_num [brightnessC, brightness])]
  refine ⟨hb, hcb, ?_, ?_, hsb, hw, hcw, hsw⟩
  · rw [hcb]; rfl
  · rw [hcb]; rfl

/-! ## Claim theorems: empty-histogram fallback -/

/-- C6: if the ranked histogram is empty, `extract_colors` immediately
returns the hardcoded pair (foreground `0xff888888`, background
`0xff222222`); no role assignment or darkening touches these strings, and
the function returns normally (the condition is not a failure). -/
theorem extract_colors_empty_fallback (pixels : List Color)
    (h : ranked pixels = []) :
    extract_colors pixels = ("0xff888888", "0xff222222") := by
  unfold extract_colors
  rw [h]

/-- Witness for C6 at the empty pixel sequence. -/
theorem extract_colors_empty_fallback_witness :
    ranked [] = [] ∧ extract_colors [] = ("0xff888888", "0xff222222") :=
  ⟨rfl, extract_colors_empty_fallback [] rfl⟩

/-! ## Claim theorems: output distinctness, roles, darkening, reachability -/

/-- C2: for every pixel sequence — including the empty-histogram fallback
case — the two hexadecimal color strings returned by `extract_colors` are
distinct from each other. -/
theorem outputs_distinct (pixels : List Color) :
    (extract_colors pixels).1 ≠ (extract_colors pixels).2 := by
  by_cases h : ranked pixels = []
  · rw [extract_colors_nil h]
    decide
  · rw [extract_colors_eq h]
    intro heq
    obtain ⟨hfg, hbg⟩ := channelsLe255_rolesOf h
    have hbgd : channelsLe255 (darken (rolesOf pixels).2) := by
      obtain ⟨b1, b2, b3⟩ := hbg
      exact ⟨le_trans (darkenChannel_le _) b1, le_trans (darkenChannel_le _) b2,
        le_trans (darkenChannel_le _) b3⟩
    have heq2 : (rolesOf pixels).1 = darken (rolesOf pixels).2 :=
      hexColor_inj hfg hbgd heq
    have hb1 : brightnessC (rolesOf pixels).2 ≤ brightnessC (rolesOf pixels).1 :=
      assignRoles_brightness _ _
    rw [heq2] at hb1
    have hle := darken_le (rolesOf pixels).2
    have heqd : darken (rolesOf pixels).2 = (rolesOf pixels).2 :=
      brightness_eq_forces hle.1 hle.2.1 hle.2.2 hb1
    exact rolesOf_ne h (heq2.trans heqd)

/-- C3: for every non-fallback result, the foreground role goes to the
member of the (primary, secondary) pair whose brightness is ≥ the
other's (primary wins equal-brightness ties), so the emitted foreground's
brightness is ≥ the background's brightness measured before darkening. -/
theorem foreground_role_by_brightness (pixels : List Color)
    (h : ranked pixels ≠ []) :
    brightnessC (rolesOf pixels).2 ≤ brightnessC (rolesOf pixels).1
    ∧ (brightnessC (primaryOf pixels) ≥ brightnessC (secondaryOf pixels) →
        rolesOf pixels = (primaryOf pixels, secondaryOf pixels))
    ∧ (¬ brightnessC (primaryOf pixels) ≥ brightnessC (secondaryOf pixels) →
        rolesOf pixels = (secondaryOf pixels, primaryOf pixels))
    ∧ extract_colors pixels =
        (hexColor (rolesOf pixels).1, hexColor (darken (rolesOf pixels).2)) := by
  refine ⟨assignRoles_brightness _ _, ?_, ?_, extract_colors_eq h⟩
  · intro hge
    unfold rolesOf assignRoles
    rw [if_pos hge]
  · intro hlt
    unfold rolesOf assignRoles
    rw [if_neg hlt]

/-- Witness for C3 at the one-pixel sequence [(0,0,0)]. -/
theorem foreground_role_by_brightness_witness :
    ranked [((0, 0, 0) : Color)] ≠ [] ∧
    (brightnessC (rolesOf [((0, 0, 0) : Color)]).2 ≤
        brightnessC (rolesOf [((0, 0, 0) : Color)]).1
    ∧ (brightnessC (primaryOf [((0, 0, 0) : Color)]) ≥
          brightnessC (secondaryOf [((0, 0, 0) : Color)]) →
        rolesOf [((0, 0, 0) : Color)] =
          (primaryOf [((0, 0, 0) : Color)], secondaryOf [((0, 0, 0) : Color)]))
    ∧ (¬ brightnessC (primaryOf [((0, 0, 0) : Color)]) ≥
          brightnessC (secondaryOf [((0, 0, 0) : Color)]) →
        rolesOf [((0, 0, 0) : Color)] =
          (secondaryOf [((0, 0, 0) : Color)], primaryOf [((0, 0, 0) : Color)]))
    ∧ extract_colors [((0, 0, 0) : Color)] =
        (hexColor (rolesOf [((0, 0, 0) : Color)]).1,
         hexColor (darken (rolesOf [((0, 0, 0) : Color)]).2))) :=
  ⟨by decide, foreground_role_by_brightness [((0, 0, 0) : Color)] (by decide)⟩

lemma floor_mul_075 (c : ℕ) : ⌊(c : ℚ) * 0.75⌋ = ((3 * c / 4 : ℕ) : ℤ) := by
  have h : (c : ℚ) * 0.75 = ((3 * c : ℕ) : ℚ) / ((4 : ℕ) : ℚ) := by
    push_cast
    ring
  rw [h, Rat.floor_natCast_div_natCast]
  omega

/-- C4: for every non-fallback result, each channel of the emitted
background equals `max(0, floor(original_channel * 0.75))` of the
pre-darkening background (255 ↦ 191, 0 ↦ 0), and the emitted foreground
is the undarkened foreground color. -/
theorem background_darkened_foreground_untouched (pixels : List Color)
    (h : ranked pixels ≠ []) :
    extract_colors pixels =
      (hexColor (rolesOf pixels).1, hexColor (darken (rolesOf pixels).2))
    ∧ (∀ c : ℕ, (darkenChannel c : ℤ) = max 0 ⌊(c : ℚ) * 0.75⌋)
    ∧ darkenChannel 255 = 191 ∧ darkenChannel 0 = 0 := by
  refine ⟨extract_colors_eq h, ?_, ?_, ?_⟩
  · intro c
    rw [darkenChannel_eq, floor_mul_075,
      max_eq_right (Int.natCast_nonneg (3 * c / 4))]
  · rw [darkenChannel_eq]
  · rw [darkenChannel_eq]

/-- Witness for C4 at the one-pixel sequence [(0,0,0)]. -/
theorem background_darkened_foreground_untouched_witness :
    ranked [((0, 0, 0) : Color)] ≠ [] ∧
    (extract_colors [((0, 0, 0) : Color)] =
      (hexColor (rolesOf [((0, 0, 0) : Color)]).1,
       hexColor (darken (rolesOf [((0, 0, 0) : Color)]).2))
    ∧ (∀ c : ℕ, (darkenChannel c : ℤ) = max 0 ⌊(c : ℚ) * 0.75⌋)
    ∧ darkenChannel 255 = 191 ∧ darkenChannel 0 = 0) :=
  ⟨by decide, background_darkened_foreground_untouched [((0, 0, 0) : Color)] (by decide)⟩

/-- C10: whenever the sampler delivers its full 80 × 80 = 6400 pixels
(which the spec states it does for every successfully decoded image), the
ranked histogram is non-empty, `extract_colors` takes the main path, and
the hardcoded fallback pair is never returned. -/
theorem fallback_unreachable_on_success (pixels : List Color)
    (h : pixels.length = sampledPixelCount) :
    ranked pixels ≠ []
    ∧ extract_colors pixels =
        (hexColor (rolesOf pixels).1, hexColor (darken (rolesOf pixels).2))
    ∧ extract_colors pixels ≠ ("0xff888888", "0xff222222") := by
  have hne : pixels ≠ [] := by
    intro he
    rw [he] at h
    simp [sampledPixelCount] at h
  have hr := ranked_ne_nil hne
  refine ⟨hr, extract_colors_eq hr, ?_⟩
  rw [extract_colors_eq hr]
  intro heq
  have h1 : hexColor (rolesOf pixels).1 = "0xff888888" := congrArg Prod.fst heq
  have h888 : ("0xff888888" : String) = hexColor (136, 136, 136) := by decide
  rw [h888] at h1
  have hch : channelsLe255 (rolesOf pixels).1 := (channelsLe255_rolesOf hr).1
  have heqc : (rolesOf pixels).1 = (136, 136, 136) :=
    hexColor_inj hch ⟨by norm_num, by norm_num, by norm_num⟩ h1
  have hshape : (∃ q ∈ pixels, (rolesOf pixels).1 = quantize q)
      ∨ (rolesOf pixels).1 = (30, 30, 30) ∨ (rolesOf pixels).1 = (230, 230, 230) := by
    unfold rolesOf
    rcases assignRoles_cases (primaryOf pixels) (secondaryOf pixels) with he | he <;> rw [he]
    · exact Or.inl (primaryOf_shape hr)
    · rcases secondaryOf_shape pixels with hm | hs | hs
      · obtain ⟨q, hq, heq'⟩ := mem_candidates_shape hm
        exact Or.inl ⟨q, hq, heq'⟩
      · exact Or.inr (Or.inl hs)
      · exact Or.inr (Or.inr hs)
  rcases hshape with ⟨q, hq, hfq⟩ | hs | hs
  · rw [heqc] at hfq
    have hq1 : quantizeChannel q.1 = 136 := congrArg Prod.fst hfq.symm
    exact quantizeChannel_ne q.1 136 (by norm_num) (by norm_num) hq1
  · have h2 : ((136, 136, 136) : Color) = (30, 30, 30) := heqc.symm.trans hs
    exact absurd (congrArg Prod.fst h2) (by norm_num)
  · have h2 : ((136, 136, 136) : Color) = (230, 230, 230) := heqc.symm.trans hs
    exact absurd (congrArg Prod.fst h2) (by norm_num)

/-- Witness for C10 at 6400 black pixels. -/
theorem fallback_unreachable_on_success_witness :
    (List.replicate 6400 ((0, 0, 0) : Color)).length = sampledPixelCount ∧
    (ranked (List.replicate 6400 ((0, 0, 0) : Color)) ≠ []
    ∧ extract_colors (List.replicate 6400 ((0, 0, 0) : Color)) =
        (hexColor (rolesOf (List.replicate 6400 ((0, 0, 0) : Color))).1,
         hexColor (darken (rolesOf (List.replicate 6400 ((0, 0, 0) : Color))).2))
    ∧ extract_colors (List.replicate 6400 ((0, 0, 0) : Color)) ≠
        ("0xff888888", "0xff222222")) :=
  ⟨(List.length_replicate 6400 ((0, 0, 0) : Color)).trans
      (by norm_num [sampledPixelCount]),
    fallback_unreachable_on_success _
      ((List.length_replicate 6400 ((0, 0, 0) : Color)).trans
        (by norm_num [sampledPixelCount]))⟩

end ColorExtractor
